import Mathlib

/-!
Verification development for the AI File Explorer repository.

The repository consists of a React/TypeScript frontend (`frontend/src`),
a README documenting the backend's behaviour, and a small PDF-parsing
experiment.  The backend indexing/search engine itself (Django) is not
part of the sources; where a claim is decided by that missing backend,
the definitions below are modelled from the specification and are marked
as such in their doc comments.  Frontend logic (`App.tsx`, `lib/api.ts`)
and the experiment (`experiments/pdfparse`) are embedded directly from
the source.
-/

namespace FileExplorer

/-! ## Chunker (modelled from the spec) -/

/-- Modelled from the spec: the backend chunker is not in the sources
(README only documents window 1000 / overlap 200).  Emits windows of
`window` characters starting at `start`, advancing by `step`
(= window - overlap); the loop stops once the start reaches the end of
the text; each window is clamped to the end of the text. -/
def chunkFrom (text : List Char) (window step : Nat) (start : Nat) :
    List (Nat × List Char) :=
  if _h : start < text.length ∧ 0 < step then
    (start, (text.drop start).take window) :: chunkFrom text window step (start + step)
  else
    []
termination_by text.length - start
decreasing_by omega

/-- Modelled from the spec: `chunk(text, window, overlap)`.  For text
shorter than `window` it yields exactly one chunk equal to the full
text; otherwise consecutive windows starting at multiples of
`window - overlap`. -/
def chunk (text : List Char) (window overlap : Nat) : List (Nat × List Char) :=
  if text.length < window then [(0, text)]
  else chunkFrom text window (window - overlap) 0

lemma chunkFrom_eq_nil (text : List Char) (window step start : Nat)
    (h : ¬ (start < text.length ∧ 0 < step)) :
    chunkFrom text window step start = [] := by
  rw [chunkFrom]
  simp [h]

lemma chunkFrom_eq_cons (text : List Char) (window step start : Nat)
    (h : start < text.length ∧ 0 < step) :
    chunkFrom text window step start =
      (start, (text.drop start).take window) ::
        chunkFrom text window step (start + step) := by
  rw [chunkFrom]
  simp [h]

/-- Position `n` exists in the emitted chunk list iff the corresponding
window start `s + n·step` is still before the end of the text. -/
lemma chunkFrom_length_iff (text : List Char) (window step : Nat)
    (hstep : 0 < step) :
    ∀ (start n : Nat),
      n < (chunkFrom text window step start).length ↔
        start + n * step < text.length := by
  intro start
  induction start using chunkFrom.induct text window step with
  | case1 start h ih =>
    intro n
    rw [chunkFrom_eq_cons text window step start h]
    cases n with
    | zero => simp [h.1]
    | succ n =>
      simp only [List.length_cons, Nat.succ_lt_succ_iff]
      rw [ih n, Nat.succ_mul]
      have e : start + step + n * step = start + (n * step + step) := by ring
      rw [e]
  | case2 start h =>
    intro n
    rw [chunkFrom_eq_nil text window step start h]
    simp only [List.length_nil]
    constructor
    · omega
    · intro hn
      exfalso
      exact h ⟨by omega, hstep⟩

/-- The `i`-th emitted chunk starts at `s + i·step` and is the window of
`window` characters there, clamped to the end of the text. -/
lemma chunkFrom_getElem? (text : List Char) (window step : Nat) :
    ∀ (start i : Nat),
      (chunkFrom text window step start)[i]? =
        if start + i * step < text.length ∧ 0 < step then
          some (start + i * step, (text.drop (start + i * step)).take window)
        else none := by
  intro start
  induction start using chunkFrom.induct text window step with
  | case1 start h ih =>
    intro i
    rw [chunkFrom_eq_cons text window step start h]
    cases i with
    | zero => simp [h.1, h.2]
    | succ i =>
      simp only [List.getElem?_cons_succ]
      rw [ih i, Nat.succ_mul]
      have e : start + step + i * step = start + (i * step + step) := by ring
      rw [e]
  | case2 start h =>
    intro i
    rw [chunkFrom_eq_nil text window step start h]
    have : ¬ (start + i * step < text.length ∧ 0 < step) := by
      intro ⟨h1, h2⟩
      exact h ⟨by omega, h2⟩
    simp [this]

lemma chunk_of_lt (text : List Char) (window overlap : Nat)
    (h : text.length < window) : chunk text window overlap = [(0, text)] := by
  simp [chunk, h]

lemma chunk_of_ge (text : List Char) (window overlap : Nat)
    (h : window ≤ text.length) :
    chunk text window overlap = chunkFrom text window (window - overlap) 0 := by
  simp [chunk, Nat.not_lt.2 h]

/-- C1: with window 1000 and overlap 200, a text shorter than the window
yields exactly one chunk equal to the full text; otherwise chunk `i`
starts at `i·800` and holds the 1000-character window there clamped to
the end of the text, and a chunk position exists exactly while its start
is before the end of the text; any 2500-character text yields exactly
the 4 chunks at offsets 0, 800, 1600, 2400 with lengths 1000, 1000,
900, 100. -/
theorem c1_chunker :
    (∀ text : List Char, text.length < 1000 →
       chunk text 1000 200 = [(0, text)])
  ∧ (∀ text : List Char, 1000 ≤ text.length →
       (∀ n, n < (chunk text 1000 200).length ↔ n * 800 < text.length)
     ∧ (∀ i, (chunk text 1000 200)[i]? =
          if i * 800 < text.length then
            some (i * 800, (text.drop (i * 800)).take 1000)
          else none))
  ∧ (∀ text : List Char, text.length = 2500 →
       (chunk text 1000 200).map Prod.fst = [0, 800, 1600, 2400]
     ∧ (chunk text 1000 200).map (fun c => c.2.length) =
         [1000, 1000, 900, 100]) := by
  have key : ∀ text : List Char, 1000 ≤ text.length →
      (∀ n, n < (chunk text 1000 200).length ↔ n * 800 < text.length)
    ∧ (∀ i, (chunk text 1000 200)[i]? =
        if i * 800 < text.length then
          some (i * 800, (text.drop (i * 800)).take 1000)
        else none) := by
    intro text h
    rw [chunk_of_ge text 1000 200 h]
    constructor
    · intro n
      have := chunkFrom_length_iff text 1000 800 (by norm_num) 0 n
      simpa using this
    · intro i
      have := chunkFrom_getElem? text 1000 800 0 i
      simpa using this
  refine ⟨fun text h => chunk_of_lt text 1000 200 h, key, ?_⟩
  intro text hl
  have hget := (key text (by omega)).2
  constructor
  · apply List.ext_getElem?
    intro i
    rw [List.getElem?_map, hget i, hl]
    rcases i with _ | _ | _ | _ | i
    · norm_num
    · norm_num
    · norm_num
    · norm_num
    · have hno : ¬ ((i + 4) * 800 < 2500) := by omega
      rw [if_neg hno]
      simp
  · apply List.ext_getElem?
    intro i
    rw [List.getElem?_map, hget i, hl]
    rcases i with _ | _ | _ | _ | i
    · norm_num [List.length_take, List.length_drop, hl]
    · norm_num [List.length_take, List.length_drop, hl]
    · norm_num [List.length_take, List.length_drop, hl]
    · norm_num [List.length_take, List.length_drop, hl]
    · have hno : ¬ ((i + 4) * 800 < 2500) := by omega
      rw [if_neg hno]
      simp

/-- C1 witness: the theorem applied at concrete texts, a 2-character
text (single chunk) and a 2500-character text (offsets 0, 800, 1600,
2400). -/
theorem c1_chunker_witness :
    chunk ['h', 'i'] 1000 200 = [(0, ['h', 'i'])]
  ∧ (chunk (List.replicate 2500 'a') 1000 200).map Prod.fst =
      [0, 800, 1600, 2400]
  ∧ (0 < (chunk (List.replicate 2500 'a') 1000 200).length ↔
      0 * 800 < (List.replicate 2500 'a').length) := by
  have hl : (List.replicate 2500 'a').length = 2500 := List.length_replicate 2500 'a'
  refine ⟨c1_chunker.1 ['h', 'i'] (by norm_num), ?_, ?_⟩
  · exact (c1_chunker.2.2 (List.replicate 2500 'a') hl).1
  · exact (c1_chunker.2.1 (List.replicate 2500 'a') (by rw [hl]; norm_num)).1 0

/-! ## Search engine (modelled from the spec) -/

/-- Modelled from the spec: the backend search engine is not in the
sources (the frontend consumes its `SearchResponse`).  Best per-file
chunk score among the chunk hits for path `p` (similarity; larger is
better). -/
def bestScore (hits : List (String × ℤ)) (p : String) : ℤ :=
  (((hits.filter (fun h => h.1 = p)).map Prod.snd).max?).getD 0

/-- Modelled from the spec: result ordering, by best per-file chunk
score descending, ties broken by path for determinism. -/
def rankRel (hits : List (String × ℤ)) (a b : String) : Prop :=
  bestScore hits b < bestScore hits a ∨
    (bestScore hits a = bestScore hits b ∧ a ≤ b)

instance rankRelDecidable (hits : List (String × ℤ)) :
    DecidableRel (rankRel hits) := fun _ _ => by
  unfold rankRel
  infer_instance

instance rankRelTotal (hits : List (String × ℤ)) :
    IsTotal String (rankRel hits) where
  total a b := by
    unfold rankRel
    rcases lt_trichotomy (bestScore hits a) (bestScore hits b) with h | h | h
    · exact Or.inr (Or.inl h)
    · rcases le_total a b with hab | hab
      · exact Or.inl (Or.inr ⟨h, hab⟩)
      · exact Or.inr (Or.inr ⟨h.symm, hab⟩)
    · exact Or.inl (Or.inl h)

instance rankRelTrans (hits : List (String × ℤ)) :
    IsTrans String (rankRel hits) where
  trans a b c hab hbc := by
    unfold rankRel at hab hbc ⊢
    rcases hab with h1 | ⟨e1, l1⟩
    · rcases hbc with h2 | ⟨e2, _⟩
      · exact Or.inl (lt_trans h2 h1)
      · exact Or.inl (e2 ▸ h1)
    · rcases hbc with h2 | ⟨e2, l2⟩
      · exact Or.inl (e1 ▸ h2)
      · exact Or.inr ⟨e1.trans e2, le_trans l1 l2⟩

/-- Modelled from the spec: deduplicate chunk hits into distinct file
paths and order them by `rankRel`. -/
def rankedPaths (hits : List (String × ℤ)) : List String :=
  List.insertionSort (rankRel hits) (hits.map Prod.fst).dedup

/-- Modelled from the spec: 1-indexed page of the ranked distinct
paths; `has_next` is true iff a further distinct path exists beyond the
current page. -/
def searchPage (ranked : List String) (page pageSize : Nat) :
    List String × Bool :=
  ((ranked.drop ((page - 1) * pageSize)).take pageSize,
   decide (page * pageSize < ranked.length))

/-- Concatenating the `⌈length/P⌉` consecutive windows of size `P`
reconstructs the whole list. -/
lemma pages_flatten {α : Type} (P : Nat) (hP : 0 < P) :
    ∀ (n : Nat) (l : List α), l.length ≤ n →
      (List.range ((l.length + P - 1) / P)).flatMap
        (fun i => (l.drop (i * P)).take P) = l := by
  intro n
  induction n with
  | zero =>
    intro l hl
    have hnil : l = [] := List.eq_nil_of_length_eq_zero (by omega)
    subst hnil
    have h0 : (0 + P - 1) / P = 0 := Nat.div_eq_of_lt (by omega)
    simp [h0]
  | succ n ih =>
    intro l hl
    by_cases h0 : l.length = 0
    · have hnil : l = [] := List.eq_nil_of_length_eq_zero h0
      subst hnil
      have h0' : (0 + P - 1) / P = 0 := Nat.div_eq_of_lt (by omega)
      simp [h0']
    · have hL : 1 ≤ l.length := by omega
      have hK : (l.length + P - 1) / P = (l.length - 1) / P + 1 := by
        have e : l.length + P - 1 = (l.length - 1) + P := by omega
        rw [e, Nat.add_div_right _ hP]
      have hK' : ((l.drop P).length + P - 1) / P = (l.length - 1) / P := by
        rw [List.length_drop]
        rcases le_or_lt P l.length with hc | hc
        · have e : l.length - P + P - 1 = l.length - 1 := by omega
          rw [e]
        · have e : l.length - P = 0 := by omega
          rw [e]
          have h1 : (0 + P - 1) / P = 0 := Nat.div_eq_of_lt (by omega)
          have h2 : (l.length - 1) / P = 0 := Nat.div_eq_of_lt (by omega)
          rw [h1, h2]
      have hdrop := ih (l.drop P) (by rw [List.length_drop]; omega)
      rw [hK'] at hdrop
      rw [hK, List.range_succ_eq_map]
      simp only [List.flatMap_cons, List.flatMap_map]
      rw [Nat.zero_mul, List.drop_zero]
      have harg :
          (fun i => (l.drop ((i + 1) * P)).take P) =
            (fun i => ((l.drop P).drop (i * P)).take P) := by
        funext i
        rw [List.drop_drop, Nat.succ_mul, Nat.add_comm (i * P) P]
      calc l.take P ++
            (List.range ((l.length - 1) / P)).flatMap
              (fun a => (l.drop ((a + 1) * P)).take P)
          = l.take P ++
            (List.range ((l.length - 1) / P)).flatMap
              (fun a => ((l.drop P).drop (a * P)).take P) := by rw [harg]
        _ = l.take P ++ l.drop P := by rw [hdrop]
        _ = l := List.take_append_drop P l

/-- The ceiling page count times the page size covers `N`. -/
lemma ceil_pages_cover (N P : Nat) (hP : 0 < P) :
    N ≤ ((N + P - 1) / P) * P := by
  have h := Nat.div_add_mod (N + P - 1) P
  have hm : (N + P - 1) % P < P := Nat.mod_lt _ hP
  rw [Nat.mul_comm]
  set t := P * ((N + P - 1) / P) with ht
  set m := (N + P - 1) % P with hm'
  omega

/-- For `N ≥ 1`, `⌈N/P⌉ = (N-1)/P + 1`. -/
lemma ceil_eq_pred_div (N P : Nat) (hP : 0 < P) (hN : 1 ≤ N) :
    (N + P - 1) / P = (N - 1) / P + 1 := by
  have e : N + P - 1 = (N - 1) + P := by omega
  rw [e, Nat.add_div_right _ hP]

/-- C2: for any multiset of chunk hits and page size `P ∈ [1,50]`, the
deduplicated ranked path list is reconstructed exactly, in rank order,
by concatenating pages `1..⌈N/P⌉`; it contains each matching path
exactly once, sorted by best per-file score descending with ties broken
by path; and `has_next` is `false` exactly on the last page. -/
theorem c2_search_pagination (hits : List (String × ℤ)) (P : Nat)
    (h1 : 1 ≤ P) (h50 : P ≤ 50) :
    (List.range (((rankedPaths hits).length + P - 1) / P)).flatMap
        (fun i => (searchPage (rankedPaths hits) (i + 1) P).1) =
      rankedPaths hits
  ∧ (rankedPaths hits).Nodup
  ∧ (∀ p, p ∈ rankedPaths hits ↔ p ∈ hits.map Prod.fst)
  ∧ (rankedPaths hits).Sorted (rankRel hits)
  ∧ (∀ k, 1 ≤ k → k ≤ ((rankedPaths hits).length + P - 1) / P →
      ((searchPage (rankedPaths hits) k P).2 = false ↔
        k = ((rankedPaths hits).length + P - 1) / P)) := by
  have hP : 0 < P := h1
  refine ⟨?_, ?_, ?_, ?_, ?_⟩
  · have harg : (fun i => (searchPage (rankedPaths hits) (i + 1) P).1) =
        (fun i => ((rankedPaths hits).drop (i * P)).take P) := by
      funext i
      simp [searchPage]
    rw [harg]
    exact pages_flatten P hP (rankedPaths hits).length (rankedPaths hits) le_rfl
  · exact (List.perm_insertionSort (rankRel hits) _).symm.nodup
      ((hits.map Prod.fst).nodup_dedup)
  · intro p
    rw [rankedPaths, List.mem_insertionSort, List.mem_dedup]
  · exact List.sorted_insertionSort (rankRel hits) _
  · intro k hk1 hk2
    simp only [searchPage, decide_eq_false_iff_not, Nat.not_lt]
    constructor
    · intro hle
      by_contra hne
      have hklt : k < ((rankedPaths hits).length + P - 1) / P :=
        lt_of_le_of_ne hk2 hne
      have hN1 : 1 ≤ (rankedPaths hits).length := by
        by_contra hN0
        have hz : (rankedPaths hits).length = 0 := by omega
        rw [hz] at hklt
        have : (0 + P - 1) / P = 0 := Nat.div_eq_of_lt (by omega)
        omega
      have hKeq := ceil_eq_pred_div (rankedPaths hits).length P hP hN1
      have hk' : k ≤ ((rankedPaths hits).length - 1) / P := by omega
      have hmul : k * P ≤ (((rankedPaths hits).length - 1) / P) * P :=
        Nat.mul_le_mul_right P hk'
      have hdm : (((rankedPaths hits).length - 1) / P) * P ≤
          (rankedPaths hits).length - 1 := Nat.div_mul_le_self _ _
      have : (rankedPaths hits).length ≤ (rankedPaths hits).length - 1 :=
        le_trans hle (le_trans hmul hdm)
      omega
    · rintro rfl
      exact ceil_pages_cover (rankedPaths hits).length P hP

/-- C2 witness: the theorem applied to the concrete hit list
`[("b",5), ("a",5), ("b",9)]` with page size 1: the ranked paths are
`["b", "a"]`, the two pages reconstruct them, and `has_next` is false
exactly on page 2. -/
theorem c2_search_pagination_witness :
    (List.range (((rankedPaths [("b", (5 : ℤ)), ("a", 5), ("b", 9)]).length
          + 1 - 1) / 1)).flatMap
        (fun i =>
          (searchPage (rankedPaths [("b", (5 : ℤ)), ("a", 5), ("b", 9)])
            (i + 1) 1).1) =
      rankedPaths [("b", (5 : ℤ)), ("a", 5), ("b", 9)]
  ∧ ((searchPage (rankedPaths [("b", (5 : ℤ)), ("a", 5), ("b", 9)]) 2 1).2
        = false ↔
      2 = ((rankedPaths [("b", (5 : ℤ)), ("a", 5), ("b", 9)]).length
          + 1 - 1) / 1) := by
  have h := c2_search_pagination [("b", (5 : ℤ)), ("a", 5), ("b", 9)] 1
    (by norm_num) (by norm_num)
  refine ⟨h.1, h.2.2.2.2 2 (by norm_num) (by decide)⟩

/-! ## Reindex job manager (modelled from the spec) -/

/-- Job status, as in the `ReindexStatusResponse` interface (the error
state is not reached on the nominal run modelled here). -/
inductive JobStatus where
  | indexing
  | completed
deriving DecidableEq

/-- Phase sub-states, as in the `ReindexStatusResponse` interface. -/
inductive JobPhase where
  | reading
  | embedding
  | storing
  | completed
deriving DecidableEq

/-- One published job status snapshot; the fields are exactly those of
the `ReindexStatusResponse` interface consumed by the polling client
(job id, directory and timestamp omitted as inert; the error field is
never set on the nominal run). -/
structure Snapshot where
  status : JobStatus
  directory : String
  current : Nat
  total : Nat
  percent : ℚ
  current_file : Option String
  phase : JobPhase
deriving DecidableEq

/-- Modelled from the spec: `percent = 100·current/total` (0 when
`total = 0`). -/
def percentOf (current total : Nat) : ℚ :=
  if total = 0 then 0 else 100 * current / total

/-- Modelled from the spec: the three per-file phase snapshots published
while document `i` (0-based) is in flight; `current` counts fully
processed documents, so it is still `i`. -/
def fileSnaps (dir : String) (T i : Nat) (p : String) : List Snapshot :=
  [⟨.indexing, dir, i, T, percentOf i T, some p, .reading⟩,
   ⟨.indexing, dir, i, T, percentOf i T, some p, .embedding⟩,
   ⟨.indexing, dir, i, T, percentOf i T, some p, .storing⟩]

/-- Modelled from the spec: the terminal snapshot of a completed job. -/
def finalSnap (dir : String) (T : Nat) : Snapshot :=
  ⟨.completed, dir, T, T, percentOf T T, none, .completed⟩

/-- Modelled from the spec: the snapshot a job is created with
(status `indexing`, phase `reading`, nothing processed yet). -/
def initialSnap (dir : String) (T : Nat) : Snapshot :=
  ⟨.indexing, dir, 0, T, percentOf 0 T, none, .reading⟩

/-- Modelled from the spec: the worker processes the remaining files
(each given with its chunk count) in scan order, starting at index `i`,
and finally publishes the terminal snapshot. -/
def traceFrom (dir : String) (T : Nat) : Nat → List (String × Nat) → List Snapshot
  | _, [] => [finalSnap dir T]
  | i, (p, _) :: rest => fileSnaps dir T i p ++ traceFrom dir T (i + 1) rest

/-- Modelled from the spec: the full sequence of snapshots published
over the life of a nominal (error-free) reindex job; `total` is fixed
at scan time as the number of discovered files. -/
def jobTrace (dir : String) (files : List (String × Nat)) : List Snapshot :=
  initialSnap dir files.length :: traceFrom dir files.length 0 files

/-- Total number of chunks upserted over the run (each file contributes
its chunk count). -/
def chunksUpserted (files : List (String × Nat)) : Nat :=
  (files.map Prod.snd).sum

/-- The `ReindexResponse` of the synchronous reindex endpoint, as in
`lib/api.ts`. -/
structure ReindexResponse where
  indexed_chunks : Nat
  directory : String
deriving DecidableEq

/-- Modelled from the spec: the synchronous reindex returns the number
of upserted chunks. -/
def reindexSync (dir : String) (files : List (String × Nat)) : ReindexResponse :=
  ⟨chunksUpserted files, dir⟩

lemma mem_fileSnaps {dir : String} {T i : Nat} {p : String} {s : Snapshot}
    (hs : s ∈ fileSnaps dir T i p) :
    s.status = JobStatus.indexing ∧ s.current = i ∧ s.total = T ∧
      s.percent = percentOf i T := by
  simp only [fileSnaps, List.mem_cons, List.not_mem_nil, or_false] at hs
  rcases hs with rfl | rfl | rfl <;> exact ⟨rfl, rfl, rfl, rfl⟩

/-- Facts true of every snapshot the worker publishes from index `i`
on: `current` is between `i` and `T`, `total` is `T`, `percent` is
derived from `current` and `total`, completed snapshots have
`current = T`, in-flight snapshots have `current < T`. -/
lemma traceFrom_facts (dir : String) (T : Nat) :
    ∀ (fs : List (String × Nat)) (i : Nat), i + fs.length ≤ T →
      ∀ s ∈ traceFrom dir T i fs,
        i ≤ s.current ∧ s.current ≤ T ∧ s.total = T ∧
        s.percent = percentOf s.current s.total ∧
        (s.status = JobStatus.completed → s.current = T) ∧
        (s.status = JobStatus.indexing → s.current < T) := by
  intro fs
  induction fs with
  | nil =>
    intro i hi s hs
    simp only [traceFrom, List.mem_singleton] at hs
    subst hs
    refine ⟨by simp [finalSnap]; omega, by simp [finalSnap], rfl, rfl, ?_, ?_⟩
    · intro _
      rfl
    · intro hst
      simp [finalSnap] at hst
  | cons hd rest ih =>
    intro i hi s hs
    obtain ⟨p, c⟩ := hd
    simp only [traceFrom, List.mem_append] at hs
    rcases hs with hs | hs
    · obtain ⟨hst, hcur, htot, hperc⟩ := mem_fileSnaps hs
      simp only [List.length_cons] at hi
      refine ⟨by omega, by omega, htot, ?_, ?_, ?_⟩
      · rw [hperc, hcur, htot]
      · intro hc
        rw [hst] at hc
        cases hc
      · intro _
        omega
    · have := ih (i + 1) (by simp only [List.length_cons] at hi; omega) s hs
      exact ⟨by omega, this.2.1, this.2.2.1, this.2.2.2.1, this.2.2.2.2.1,
        this.2.2.2.2.2⟩

/-- The published `current` values never decrease across the worker's
snapshots. -/
lemma traceFrom_pairwise (dir : String) (T : Nat) :
    ∀ (fs : List (String × Nat)) (i : Nat), i + fs.length ≤ T →
      (traceFrom dir T i fs).Pairwise (fun a b => a.current ≤ b.current) := by
  intro fs
  induction fs with
  | nil =>
    intro i hi
    simp [traceFrom]
  | cons hd rest ih =>
    intro i hi
    obtain ⟨p, c⟩ := hd
    simp only [List.length_cons] at hi
    rw [traceFrom, List.pairwise_append]
    refine ⟨?_, ih (i + 1) (by omega), ?_⟩
    · simp [fileSnaps]
    · intro a ha b hb
      have hcur := (mem_fileSnaps ha).2.1
      have hb' := (traceFrom_facts dir T rest (i + 1) (by omega) b hb).1
      omega

lemma traceFrom_ne_nil (dir : String) (T : Nat) (fs : List (String × Nat))
    (i : Nat) : traceFrom dir T i fs ≠ [] := by
  cases fs with
  | nil => simp [traceFrom]
  | cons hd rest =>
    obtain ⟨p, c⟩ := hd
    simp [traceFrom, fileSnaps]

lemma traceFrom_getLast? (dir : String) (T : Nat) :
    ∀ (fs : List (String × Nat)) (i : Nat),
      (traceFrom dir T i fs).getLast? = some (finalSnap dir T) := by
  intro fs
  induction fs with
  | nil =>
    intro i
    simp [traceFrom]
  | cons hd rest ih =>
    intro i
    obtain ⟨p, c⟩ := hd
    rw [traceFrom, List.getLast?_append_of_ne_nil (fileSnaps dir T i p)
      (traceFrom_ne_nil dir T rest (i + 1))]
    exact ih (i + 1)

/-- C3 (amended): over the whole life of a job the published `current`
is non-decreasing and `total` is fixed at scan time; for every job with
at least one discovered file, `current` equals `total` exactly on
snapshots whose status is `completed`.  (For an empty scan the initial
`indexing` snapshot already has `current = total = 0`, see the
counterexample.) -/
theorem c3_job_progress (dir : String) (files : List (String × Nat)) :
    (jobTrace dir files).Pairwise (fun a b => a.current ≤ b.current)
  ∧ (∀ s ∈ jobTrace dir files, s.total = files.length)
  ∧ (files ≠ [] → ∀ s ∈ jobTrace dir files,
      (s.status = JobStatus.completed ↔ s.current = s.total)) := by
  refine ⟨?_, ?_, ?_⟩
  · rw [jobTrace, List.pairwise_cons]
    refine ⟨?_, traceFrom_pairwise dir files.length files 0 (by omega)⟩
    intro b _
    simp [initialSnap]
  · intro s hs
    rcases List.mem_cons.mp hs with rfl | hs'
    · rfl
    · exact (traceFrom_facts dir files.length files 0 (by omega) s hs').2.2.1
  · intro hne s hs
    have hT : 1 ≤ files.length := by
      cases files with
      | nil => exact absurd rfl hne
      | cons _ _ => simp
    rcases List.mem_cons.mp hs with rfl | hs'
    · constructor
      · intro h
        cases h
      · intro h
        simp only [initialSnap] at h
        omega
    · have hf := traceFrom_facts dir files.length files 0 (by omega) s hs'
      constructor
      · intro h
        rw [hf.2.2.1]
        exact hf.2.2.2.2.1 h
      · intro h
        rw [hf.2.2.1] at h
        cases hst : s.status with
        | completed => rfl
        | indexing =>
          have := hf.2.2.2.2.2 hst
          omega

/-- C3 counterexample: the claim as stated fails for a job over an
empty scan — the job's initial snapshot has status `indexing` while
already satisfying `current = total` (both 0). -/
theorem c3_job_progress_counterexample :
    (initialSnap "docs" 0) ∈ jobTrace "docs" []
  ∧ (initialSnap "docs" 0).status ≠ JobStatus.completed
  ∧ (initialSnap "docs" 0).current = (initialSnap "docs" 0).total := by
  refine ⟨List.mem_cons_self _ _, by decide, by decide⟩

/-- C3 witness: the theorem applied to a one-file job; its terminal
snapshot satisfies the `completed ↔ current = total` equivalence and the
whole trace is monotone. -/
theorem c3_job_progress_witness :
    (jobTrace "docs" [("a.txt", 4)]).Pairwise (fun a b => a.current ≤ b.current)
  ∧ ((finalSnap "docs" 1).status = JobStatus.completed ↔
      (finalSnap "docs" 1).current = (finalSnap "docs" 1).total) := by
  have h := c3_job_progress "docs" [("a.txt", 4)]
  have hmem : finalSnap "docs" 1 ∈ jobTrace "docs" [("a.txt", 4)] :=
    List.mem_cons_of_mem _
      (List.mem_of_getLast?_eq_some (traceFrom_getLast? "docs" 1 [("a.txt", 4)] 0))
  exact ⟨h.1, h.2.2 (by simp) (finalSnap "docs" 1) hmem⟩

/-- C4 counterexample: two runs that upsert different numbers of chunks
publish identical snapshot traces (the status snapshots carry no chunk
count), so the chunk count of a completed job is not recoverable from
the final status snapshot. -/
theorem c4_chunk_count_counterexample :
    jobTrace "docs" [("a.txt", 1)] = jobTrace "docs" [("a.txt", 2)]
  ∧ chunksUpserted [("a.txt", 1)] ≠ chunksUpserted [("a.txt", 2)] :=
  ⟨rfl, by decide⟩

/-- C4 (amended): the total chunk count of a run is returned by the
synchronous reindex response (`indexed_chunks`), while the job's final
status snapshot reports only completion and the file counts
(`current = total`); it has no chunk-count field. -/
theorem c4_chunk_count (dir : String) (files : List (String × Nat)) :
    (reindexSync dir files).indexed_chunks = chunksUpserted files
  ∧ (jobTrace dir files).getLast? = some (finalSnap dir files.length)
  ∧ (finalSnap dir files.length).status = JobStatus.completed
  ∧ (finalSnap dir files.length).current = files.length
  ∧ (finalSnap dir files.length).total = files.length := by
  refine ⟨rfl, ?_, rfl, rfl, rfl⟩
  rw [jobTrace, ← List.singleton_append,
    List.getLast?_append_of_ne_nil _ (traceFrom_ne_nil dir files.length files 0)]
  exact traceFrom_getLast? dir files.length files 0

/-- C4 witness: the (amended) theorem applied to a concrete two-file
run. -/
theorem c4_chunk_count_witness :
    (reindexSync "docs" [("a.txt", 2), ("b.txt", 3)]).indexed_chunks =
      chunksUpserted [("a.txt", 2), ("b.txt", 3)]
  ∧ (jobTrace "docs" [("a.txt", 2), ("b.txt", 3)]).getLast? =
      some (finalSnap "docs" 2) := by
  have h := c4_chunk_count "docs" [("a.txt", 2), ("b.txt", 3)]
  exact ⟨h.1, h.2.1⟩

/-- C8: every published snapshot's `percent` equals
`100·current/total` when `total > 0` and `0` when `total = 0`; the
division is guarded by the `total = 0` test. -/
theorem c8_percent (dir : String) (files : List (String × Nat)) :
    ∀ s ∈ jobTrace dir files,
      s.percent = percentOf s.current s.total
    ∧ (s.total = 0 → s.percent = 0)
    ∧ (0 < s.total → s.percent = 100 * s.current / s.total) := by
  intro s hs
  have hp : s.percent = percentOf s.current s.total := by
    rcases List.mem_cons.mp hs with rfl | hs'
    · rfl
    · exact (traceFrom_facts dir files.length files 0 (by omega) s hs').2.2.2.1
  refine ⟨hp, ?_, ?_⟩
  · intro h0
    rw [hp, percentOf, if_pos h0]
  · intro hpos
    rw [hp, percentOf, if_neg (by omega)]

/-- C8 witness: the theorem applied to concrete snapshots — the
terminal snapshot of a one-file job (`total = 1 > 0`) and the initial
snapshot of an empty job (`total = 0`). -/
theorem c8_percent_witness :
    (finalSnap "docs" 1).percent =
      100 * (finalSnap "docs" 1).current / (finalSnap "docs" 1).total
  ∧ (initialSnap "docs" 0).percent = 0 := by
  have hmem : finalSnap "docs" 1 ∈ jobTrace "docs" [("a.txt", 3)] :=
    List.mem_cons_of_mem _
      (List.mem_of_getLast?_eq_some (traceFrom_getLast? "docs" 1 [("a.txt", 3)] 0))
  have h1 := c8_percent "docs" [("a.txt", 3)] (finalSnap "docs" 1) hmem
  have h2 := c8_percent "docs" [] (initialSnap "docs" 0) (List.mem_cons_self _ _)
  exact ⟨h1.2.2 (by decide), h2.2.1 (by decide)⟩

/-! ## Directory scanner (modelled from the spec) -/

/-- Modelled from the spec: the backend scanner is not in the sources
(README only documents the 200-file safety limit).  Deterministic
traversal order over identical filesystem state: lexical path order. -/
def scanOrder (files : List String) : List String :=
  List.insertionSort (· ≤ ·) files

/-- Modelled from the spec: enumerate the files in deterministic order,
truncate at the cap rather than failing, and report how many files were
skipped. -/
def scan (files : List String) (cap : Nat) : List String × Nat :=
  ((scanOrder files).take cap, files.length - cap)

/-- C6: a scan of any directory holding more than 200 eligible files
with cap 200 returns exactly the first 200 files of the deterministic
traversal order rather than failing, reports exactly the number of
files it skipped (total − 200, so returned + skipped = total), and
repeated scans of the unchanged directory (the same files, in any
enumeration order) return the same result. -/
theorem c6_scanner_cap (files files' : List String)
    (hgt : 200 < files.length) (hperm : files.Perm files') :
    (scan files 200).1 = (scanOrder files).take 200
  ∧ (scan files 200).1.length = 200
  ∧ (scan files 200).2 = files.length - 200
  ∧ (scan files 200).1.length + (scan files 200).2 = files.length
  ∧ scan files' 200 = scan files 200 := by
  have hlen : (scan files 200).1.length = 200 := by
    rw [scan, List.length_take, scanOrder, List.length_insertionSort]
    omega
  refine ⟨rfl, hlen, rfl, ?_, ?_⟩
  · rw [hlen, scan]
    omega
  · have hsort : scanOrder files' = scanOrder files := by
      apply List.eq_of_perm_of_sorted
        ((List.perm_insertionSort _ files').trans
          (hperm.symm.trans (List.perm_insertionSort _ files).symm))
        (List.sorted_insertionSort _ files')
        (List.sorted_insertionSort _ files)
    rw [scan, scan, hsort, hperm.length_eq]

/-- C6 witness: the theorem applied to a concrete 250-file directory
(trivially re-enumerated in the same order): 200 returned, 50 skipped. -/
theorem c6_scanner_cap_witness :
    (scan (List.replicate 250 "f.txt") 200).1.length = 200
  ∧ (scan (List.replicate 250 "f.txt") 200).2 = 50 := by
  have h := c6_scanner_cap (List.replicate 250 "f.txt")
    (List.replicate 250 "f.txt")
    (by rw [List.length_replicate]; norm_num) (List.Perm.refl _)
  have hsk := h.2.2.1
  rw [List.length_replicate] at hsk
  norm_num at hsk
  exact ⟨h.2.1, hsk⟩

/-! ## Preview service path containment (modelled from the spec) -/

/-- Modelled from the spec: the backend preview service is not in the
sources (`lib/api.ts` only declares its client).  Path normalisation
over `/`-separated segments: `..` pops a segment, `.` is dropped. -/
def normalizeSegs (segs : List String) : List String :=
  segs.foldl
    (fun acc s =>
      if s = ".." then acc.dropLast
      else if s = "." then acc
      else acc ++ [s])
    []

/-- Modelled from the spec: resolve a request path against a configured
root to an absolute, normalised path. -/
def resolve (root rel : List String) : List String :=
  normalizeSegs (root ++ rel)

/-- The preview failure surfaced to the caller. -/
inductive PreviewError where
  | NotFound
deriving DecidableEq

/-- Modelled from the spec: preview returns file content only when the
resolved absolute path is a descendant of one of the configured logical
directory roots; otherwise it fails with `NotFound`. -/
def preview (roots : List (List String)) (fileContents : List String → Option String)
    (root rel : List String) : Except PreviewError String :=
  let resolved := resolve root rel
  if roots.any (fun r => r.isPrefixOf resolved) then
    match fileContents resolved with
    | some c => Except.ok c
    | none => Except.error PreviewError.NotFound
  else
    Except.error PreviewError.NotFound

/-- C7: whenever the resolved path is not a descendant of any
configured root, preview fails with `NotFound` and never returns
content, whatever the filesystem holds. -/
theorem c7_path_containment (roots : List (List String))
    (fileContents : List String → Option String) (root rel : List String)
    (h : roots.any (fun r => r.isPrefixOf (resolve root rel)) = false) :
    preview roots fileContents root rel = Except.error PreviewError.NotFound
  ∧ ∀ c, preview roots fileContents root rel ≠ Except.ok c := by
  have hp : preview roots fileContents root rel
      = Except.error PreviewError.NotFound := by
    rw [preview]
    simp [h]
  exact ⟨hp, fun c hc => by rw [hp] at hc; cases hc⟩

/-- C7 witness: `../../etc/passwd` resolved against the configured root
`/app/documents1` escapes every configured root, so preview fails with
`NotFound` even though the filesystem would serve the file. -/
theorem c7_path_containment_witness :
    preview [["app", "documents1"]] (fun _ => some "secret")
      ["app", "documents1"] ["..", "..", "etc", "passwd"]
      = Except.error PreviewError.NotFound
  ∧ preview [["app", "documents1"]] (fun _ => some "secret")
      ["app", "documents1"] ["..", "..", "etc", "passwd"]
      ≠ Except.ok "secret" := by
  have h := c7_path_containment [["app", "documents1"]] (fun _ => some "secret")
    ["app", "documents1"] ["..", "..", "etc", "passwd"] (by decide)
  exact ⟨h.1, h.2 "secret"⟩

/-! ## Text/PDF extractor (from `experiments/pdfparse`) -/

/-- From the source (`get_text_from_odf` in `experiments/pdfparse`):
iterates over the pages of the opened document and appends each page's
text to a single accumulating string, which is returned. -/
def get_text_from_odf (pages : List String) : String :=
  pages.foldl (fun text page => text ++ page) ""

/-- The spec-side extractor interface: `extract(path)` returns an
ordered sequence of page texts, one element per page. -/
def extract_spec (pages : List String) : List String :=
  pages

/-- The sequence of texts the source extractor actually returns: a
single concatenated string. -/
def extractSeq (pages : List String) : List String :=
  [get_text_from_odf pages]

lemma foldl_append_shift :
    ∀ (l : List String) (a : String),
      l.foldl (fun text page => text ++ page) a
        = a ++ l.foldl (fun text page => text ++ page) "" := by
  intro l
  induction l with
  | nil =>
    intro a
    simp
  | cons b l ih =>
    intro a
    simp only [List.foldl_cons]
    rw [ih (a ++ b), ih ("" ++ b)]
    rw [String.append_assoc]
    simp

/-- C5 counterexample: on a two-page document the source extractor does
not return one element per page — it returns the single concatenated
text. -/
theorem c5_extractor_counterexample :
    extractSeq ["page one", "page two"] ≠ extract_spec ["page one", "page two"]
  ∧ (extractSeq ["page one", "page two"]).length = 1 := by
  exact ⟨by decide, rfl⟩

/-- C5 (amended): the source extractor returns the page texts
concatenated in page order into one string; for a single-page document
(a plain text file is read as one page) the returned text is exactly
that page's text. -/
theorem c5_extractor_concat (p : String) (ps : List String) :
    get_text_from_odf (p :: ps) = p ++ get_text_from_odf ps
  ∧ get_text_from_odf [p] = p := by
  constructor
  · rw [get_text_from_odf, get_text_from_odf, List.foldl_cons]
    rw [foldl_append_shift ps ("" ++ p)]
    simp
  · rw [get_text_from_odf]
    simp

/-- C5 witness: the (amended) theorem applied to concrete page lists. -/
theorem c5_extractor_concat_witness :
    get_text_from_odf ["one", "two"] = "one" ++ get_text_from_odf ["two"]
  ∧ get_text_from_odf ["solo"] = "solo" :=
  ⟨(c5_extractor_concat "one" ["two"]).1, (c5_extractor_concat "solo" []).2⟩

/-! ## Frontend (from `frontend/src/App.tsx`) -/

/-- The `type` discriminator of a frontend `FileItem`. -/
inductive FileType where
  | file
  | folder
deriving DecidableEq

/-- The frontend `FileItem` record (strings embedded as character
lists so the JavaScript string operations stay kernel-computable). -/
structure FileItem where
  id : String
  name : List Char
  path : List Char
  type : FileType

/-- JavaScript `s.split(sep)` for a one-character separator: always at
least one (possibly empty) segment. -/
def splitOnChar (sep : Char) (s : List Char) : List (List Char) :=
  s.foldr
    (fun c r => if c = sep then [] :: r else (c :: r.headD []) :: r.tail)
    [[]]

/-- JavaScript `path.startsWith('/')`. -/
def startsWithSlash : List Char → Bool
  | '/' :: _ => true
  | _ => false

/-- From the source (`pathToFileItem` in `App.tsx`): split the backend
path on `/`, take the last segment as the name, classify as a file iff
the name contains a dot, and prepend a leading slash when missing. -/
def pathToFileItem (path : List Char) (index : Nat) : FileItem :=
  let parts := splitOnChar '/' path
  let name := parts.getLastD []
  let hasExtension := name.contains '.'
  { id := "file-" ++ toString index ++ "-" ++ String.mk path
    name := name
    path := if startsWithSlash path then path else '/' :: path
    type := if hasExtension then FileType.file else FileType.folder }

/-- The two open modes of the frontend's `/open` request. -/
inductive OpenMode where
  | preview
  | open_os
deriving DecidableEq

/-- From the source (`handleFileClick` in `App.tsx`): folders are never
opened — no request is issued; for files, the leading slash is dropped
and an open request `(path, mode)` is issued. -/
def handleFileClick (file : FileItem) (mode : OpenMode) :
    Option (List Char × OpenMode) :=
  if file.type = FileType.folder then none
  else some (file.path.drop 1, mode)

/-- From the source (`handlePageChange` in `App.tsx`): a requested page
is applied only if it is at least 1 and, while `has_next` is true, at
most one past the current page. -/
def handlePageChange (currentPage : Int) (hasNext : Bool) (newPage : Int) : Int :=
  if 1 ≤ newPage ∧ (hasNext = false ∨ newPage ≤ currentPage + 1) then newPage
  else currentPage

/-- The page reached after a sequence of page-change events
`(newPage, hasNext)`, starting from the initial page 1
(`useState(1)` in `App.tsx`). -/
def pageAfterEvents (events : List (Int × Bool)) : Int :=
  events.foldl (fun cur e => handlePageChange cur e.2 e.1) 1

lemma foldl_handlePageChange_ge_one :
    ∀ (events : List (Int × Bool)) (cur : Int), 1 ≤ cur →
      1 ≤ events.foldl (fun c e => handlePageChange c e.2 e.1) cur := by
  intro events
  induction events with
  | nil =>
    intro cur hcur
    exact hcur
  | cons e es ih =>
    intro cur hcur
    simp only [List.foldl_cons]
    apply ih
    rw [handlePageChange]
    split
    · next hc => exact hc.1
    · exact hcur

/-- C9: starting from page 1, the current page stays at least 1 under
every sequence of page-change events; an event is applied exactly when
the requested page is ≥ 1 and (`has_next` is false or it is at most one
past the current page); and while `has_next` is true one event advances
the page by at most one. -/
theorem c9_page_change :
    (∀ events : List (Int × Bool), 1 ≤ pageAfterEvents events)
  ∧ (∀ (cur : Int) (hn : Bool) (np : Int),
      (handlePageChange cur hn np = np
         ∧ (1 ≤ np ∧ (hn = false ∨ np ≤ cur + 1)))
      ∨ (handlePageChange cur hn np = cur
         ∧ ¬(1 ≤ np ∧ (hn = false ∨ np ≤ cur + 1))))
  ∧ (∀ (cur np : Int), handlePageChange cur true np ≤ cur + 1) := by
  refine ⟨?_, ?_, ?_⟩
  · intro events
    exact foldl_handlePageChange_ge_one events 1 le_rfl
  · intro cur hn np
    by_cases hc : 1 ≤ np ∧ (hn = false ∨ np ≤ cur + 1)
    · exact Or.inl ⟨by rw [handlePageChange, if_pos hc], hc⟩
    · exact Or.inr ⟨by rw [handlePageChange, if_neg hc], hc⟩
  · intro cur np
    rw [handlePageChange]
    split
    · next hc =>
      rcases hc.2 with hfalse | hle
      · cases hfalse
      · exact hle
    · omega

/-- C9 witness: the theorem applied to a concrete event sequence and a
concrete page-advance attempt under `has_next = true`. -/
theorem c9_page_change_witness :
    1 ≤ pageAfterEvents [((2 : Int), true), ((5 : Int), true), ((0 : Int), false)]
  ∧ handlePageChange 1 true 2 ≤ 1 + 1 :=
  ⟨c9_page_change.1 _, c9_page_change.2.2 1 2⟩

/-- C10: a search-result path is classified as a file exactly when its
final `/`-separated segment contains a dot, a leading slash is
prepended exactly when the path lacks one, and clicking an item
classified as a folder issues no open or preview request — so a result
file without an extension can never be previewed or opened from the
UI. -/
theorem c10_folder_classification :
    (∀ (path : List Char) (index : Nat),
      (pathToFileItem path index).type = FileType.file ↔
        ((splitOnChar '/' path).getLastD []).contains '.' = true)
  ∧ (∀ (path : List Char) (index : Nat),
      (pathToFileItem path index).path =
        if startsWithSlash path then path else '/' :: path)
  ∧ (∀ (path : List Char) (index : Nat), startsWithSlash path = false →
      (pathToFileItem path index).path = '/' :: path)
  ∧ (∀ (path : List Char) (index : Nat) (mode : OpenMode),
      ((splitOnChar '/' path).getLastD []).contains '.' = false →
        handleFileClick (pathToFileItem path index) mode = none) := by
  refine ⟨?_, ?_, ?_, ?_⟩
  · intro path index
    rw [pathToFileItem]
    by_cases h : ((splitOnChar '/' path).getLastD []).contains '.' = true
    · simp only [h, if_true]
    · have h' : ((splitOnChar '/' path).getLastD []).contains '.' = false := by
        revert h
        cases ((splitOnChar '/' path).getLastD []).contains '.' <;> simp
      simp only [h', Bool.false_eq_true, if_false]
      constructor
      · intro hfe
        cases hfe
      · intro htrue
        exact htrue.elim
  · intro path index
    rfl
  · intro path index h
    rw [pathToFileItem]
    simp [h]
  · intro path index mode h
    rw [handleFileClick, pathToFileItem]
    simp only [h, Bool.false_eq_true, if_false]
    rw [if_pos trivial]

/-- C10 witness: the theorem applied at the extensionless result path
`"documents1/Makefile"` — it is classified as a folder, gains a leading
slash, and clicking it issues no request in either mode. -/
theorem c10_folder_classification_witness :
    (pathToFileItem "documents1/Makefile".toList 0).path =
      '/' :: "documents1/Makefile".toList
  ∧ handleFileClick (pathToFileItem "documents1/Makefile".toList 0)
      OpenMode.preview = none
  ∧ handleFileClick (pathToFileItem "documents1/Makefile".toList 0)
      OpenMode.open_os = none := by
  refine ⟨c10_folder_classification.2.2.1 "documents1/Makefile".toList 0
    (by decide), ?_, ?_⟩
  · exact c10_folder_classification.2.2.2 "documents1/Makefile".toList 0
      OpenMode.preview (by decide)
  · exact c10_folder_classification.2.2.2 "documents1/Makefile".toList 0
      OpenMode.open_os (by decide)

end FileExplorer
